import Mathlib

/-!
Verification of the synthetic airline dataset generator and contingency
aggregator (`generate_airline_data.py`, `create_proper_contingency_table.py`).

Dictionaries keyed by airline name are embedded as association lists
`List (String × ℚ)` / `List (String × Nat)` in declaration order; the random
source is made explicit: the Poisson sample is a `Nat` argument and every
`np.random.choice` call consumes one rational `r ∈ [0,1)` and selects by
inverse-CDF search over the cumulative weights, which is how numpy implements
a weighted categorical draw.  A draw that numpy would reject with
`ValueError` (a negative weight, or weights whose sum is not 1 within
numpy's tolerance `sqrt(eps) = 2^-26`) is rendered as `none`.
-/

namespace Airline

/-- Association-list of preference weights, mirroring a Python dict
`{airline: weight}` in declaration order. -/
abbrev Pref := List (String × ℚ)

/-- Lookup in an association list: value of the first entry with the given
key, 0 when absent (source dicts always contain their keys). -/
def lookupW : Pref → String → ℚ
  | [], _ => 0
  | p :: l, k => if p.1 = k then p.2 else lookupW l k

/-- Embeds the in-place `adjusted_probs[a] *= boost` dict update: every entry
whose key matches is multiplied.  (In the source the key always exists, since
boost rules mention catalog airlines; on an absent key Python would raise
`KeyError` while this rendering is a no-op.) -/
def mulKey (l : Pref) (k : String) (b : ℚ) : Pref :=
  l.map (fun p => if p.1 = k then (p.1, p.2 * b) else p)

/-- Embeds the dict assignment `d[k] = v`: overwrite when the key exists,
append otherwise. -/
def dset {β : Type} (l : List (String × β)) (k : String) (v : β) :
    List (String × β) :=
  if l.any (fun p => p.1 == k) then
    l.map (fun p => if p.1 = k then (p.1, v) else p)
  else l ++ [(k, v)]

/-- Embeds one inner step of the boost loop in `generate_user_visits`
(lines 160-165): for the current visited airline `v` and one boost rule
`((a1,a2), boost)`, apply
`if visited == a1 and a2 not in visited_airlines: adjusted[a2] *= boost`
`elif visited == a2 and a1 not in visited_airlines: adjusted[a1] *= boost`. -/
def boostStep (visited : List String) (v : String) (acc : Pref)
    (rule : (String × String) × ℚ) : Pref :=
  if rule.1.1 == v && !(visited.contains rule.1.2) then
    mulKey acc rule.1.2 rule.2
  else if rule.1.2 == v && !(visited.contains rule.1.1) then
    mulKey acc rule.1.1 rule.2
  else acc

/-- Embeds the double loop `for visited in visited_airlines: for rule in
cooccurrence_boost.items(): ...` applying co-occurrence boosts to a copy of
the preferences. -/
def applyBoosts (boosts : List ((String × String) × ℚ)) (visited : List String)
    (probs : Pref) : Pref :=
  visited.foldl (fun acc v => boosts.foldl (boostStep visited v) acc) probs

/-- Embeds `for visited in visited_airlines: adjusted_probs[visited] = 0`. -/
def zeroVisited (visited : List String) (probs : Pref) : Pref :=
  visited.foldl (fun acc v => dset acc v 0) probs

/-- The adjusted probabilities used for one additional draw
(`generate_airline_data.py` lines 156-169): copy the preferences, apply all
boosts for already-visited airlines, then zero out visited airlines. -/
def adjustedProbs (prefs : Pref) (boosts : List ((String × String) × ℚ))
    (visited : List String) : Pref :=
  zeroVisited visited (applyBoosts boosts visited prefs)

/-- Embeds `sum(adjusted_probs.values())`. -/
def totalProb (l : Pref) : ℚ := (l.map Prod.snd).sum

/-- Embeds `normalized_probs = {k: v/total_prob for k, v in ...}`. -/
def normalizeP (l : Pref) (total : ℚ) : Pref :=
  l.map (fun p => (p.1, p.2 / total))

/-- Tolerance numpy uses when checking that categorical probabilities sum
to 1: `sqrt(eps(float64)) = 2^-26`. -/
def npAtol : ℚ := 1 / 67108864

/-- Inverse-CDF search: the index selected by a uniform draw `r` against the
cumulative sums of `ws` (numpy's `cdf.searchsorted(r, side='right')`). -/
def pickIdx : List ℚ → ℚ → Option Nat
  | [], _ => none
  | w :: ws, r => if r < w then some 0 else (pickIdx ws (r - w)).map (· + 1)

/-- Embeds `np.random.choice(keys, p=weights)` at uniform draw `r`: rejects
negative weights and weight sums not within `npAtol` of 1 (numpy raises
`ValueError`, rendered `none`), then normalizes the cdf by its last value and
searches it, i.e. picks the index whose weight interval contains `r * sum`. -/
def npChoice (items : Pref) (r : ℚ) : Option String :=
  let ws := items.map Prod.snd
  if ws.any (fun w => w < 0) then none
  else if npAtol < |ws.sum - 1| then none
  else (pickIdx ws (r * ws.sum)).bind (fun i => (items.get? i).map Prod.fst)

/-- One user behavior type of `USER_TYPES` (`generate_airline_data.py`
lines 53-127). -/
structure Segment where
  weight : ℚ
  preferences : Pref
  avg_visits : ℚ
  cooccurrence_boost : List ((String × String) × ℚ)

/-- The airline catalog: keys of `AIRLINES` in declaration order. -/
def AIRLINES : List String :=
  ["British_Airways", "Virgin_Atlantic", "Lufthansa", "Air_France", "Ryanair"]

/-- The `USER_TYPES` catalog (weights, preferences, average visit counts and
co-occurrence boosts) transcribed from `generate_airline_data.py`. -/
def USER_TYPES : List (String × Segment) :=
  [("business_uk",
    { weight := 0.22
      preferences := [("British_Airways", 0.55), ("Virgin_Atlantic", 0.35),
        ("Lufthansa", 0.08), ("Air_France", 0.02), ("Ryanair", 0.00)]
      avg_visits := 2.2
      cooccurrence_boost := [(("British_Airways", "Virgin_Atlantic"), 5.0)] }),
   ("business_european",
    { weight := 0.18
      preferences := [("Lufthansa", 0.50), ("Air_France", 0.40),
        ("British_Airways", 0.08), ("Virgin_Atlantic", 0.02), ("Ryanair", 0.00)]
      avg_visits := 2.1
      cooccurrence_boost := [(("Lufthansa", "Air_France"), 5.0)] }),
   ("leisure_premium",
    { weight := 0.25
      preferences := [("British_Airways", 0.30), ("Virgin_Atlantic", 0.30),
        ("Lufthansa", 0.25), ("Air_France", 0.15), ("Ryanair", 0.00)]
      avg_visits := 2.8
      cooccurrence_boost := [(("British_Airways", "Virgin_Atlantic"), 3.5),
        (("Lufthansa", "Air_France"), 3.0)] }),
   ("budget_conscious",
    { weight := 0.25
      preferences := [("Ryanair", 0.75), ("British_Airways", 0.08),
        ("Lufthansa", 0.07), ("Air_France", 0.06), ("Virgin_Atlantic", 0.04)]
      avg_visits := 1.8
      cooccurrence_boost := [(("Ryanair", "British_Airways"), 2.0)] }),
   ("price_shopper",
    { weight := 0.10
      preferences := [("Ryanair", 0.40), ("British_Airways", 0.20),
        ("Lufthansa", 0.18), ("Air_France", 0.12), ("Virgin_Atlantic", 0.10)]
      avg_visits := 3.5
      cooccurrence_boost := [(("Ryanair", "British_Airways"), 4.0),
        (("Ryanair", "Lufthansa"), 3.5),
        (("British_Airways", "Lufthansa"), 2.5)] })]

/-- Embeds `generate_user_type`: a weighted categorical draw over the
segment weights of the catalog. -/
def generate_user_type (catalog : List (String × Segment)) (r : ℚ) :
    Option String :=
  npChoice (catalog.map (fun p => (p.1, p.2.weight))) r

/-- Embeds the additional-visits loop of `generate_user_visits`
(lines 155-181): `m` remaining iterations, one uniform draw per iteration
taken from the head of `rs`; when the total adjusted weight is not positive
the iteration draws nothing (the Python loop body is skipped). -/
def additionalVisits (prefs : Pref) (boosts : List ((String × String) × ℚ)) :
    Nat → List ℚ → List (String × Nat) → List String →
    Option (List (String × Nat) × List String)
  | 0, _, visits, visited => some (visits, visited)
  | m + 1, rs, visits, visited =>
    let adjusted := adjustedProbs prefs boosts visited
    let total := totalProb adjusted
    if 0 < total then
      match npChoice (normalizeP adjusted total) (rs.headD 0) with
      | some a =>
        additionalVisits prefs boosts m rs.tail (dset visits a 1)
          (visited ++ [a])
      | none => none
    else additionalVisits prefs boosts m rs.tail visits visited

/-- Embeds `generate_user_visits` for one session: `poisson` is the Poisson
sample `int(np.random.poisson(avg_visits))`, `r0` the uniform draw of the
first airline selection, `rs` the uniform draws of the additional visits. -/
def generate_user_visits (entities : List String) (seg : Segment)
    (poisson : Nat) (r0 : ℚ) (rs : List ℚ) : Option (List (String × Nat)) :=
  let num_visits := min (max 1 poisson) entities.length
  let visits0 := entities.map (fun a => (a, (0 : Nat)))
  match npChoice seg.preferences r0 with
  | none => none
  | some first =>
    (additionalVisits seg.preferences seg.cooccurrence_boost (num_visits - 1)
      rs (dset visits0 first 1) [first]).map Prod.fst

/-- Number of entities flagged 1 in a session's visit record. -/
def countOnes (v : List (String × Nat)) : Nat :=
  v.countP (fun p => p.2 == 1)

/-- Embeds `user[airline_cols].sum()`: total of the visit flags. -/
def sumValues (v : List (String × Nat)) : Nat := (v.map Prod.snd).sum

/-- One row of the raw session table `synthetic_airline_visits.csv`: the
segment label and the binary visit column for each airline. -/
structure SessionRow where
  user_type : String
  visit : String → Nat

/-- Embeds the cell fill of `create_airline_usertype_table` (lines 40-46):
the number of sessions of user type `t` whose visit flag for airline `a`
equals 1. -/
def cell (sessions : List SessionRow) (a t : String) : Nat :=
  sessions.countP (fun s => s.user_type == t && s.visit a == 1)

/-- The distinct user types appearing in the data
(`df['user_type'].unique()`; the source sorts them to order the columns,
which permutes but does not change the column set). -/
def userTypes (sessions : List SessionRow) : List String :=
  (sessions.map (fun s => s.user_type)).dedup

/-- Embeds the visit-pattern derivation of `create_alternative_tables`
(lines 92-103) from `num_visits = user[airline_cols].sum()`. -/
def visitPattern (num_visits : Nat) : String :=
  if num_visits = 1 then "single_airline"
  else if num_visits = 2 then "two_airlines"
  else if num_visits = 3 then "three_airlines"
  else if 4 ≤ num_visits then "multi_airline"
  else "no_visits"

/-- Embeds `user[['British_Airways', 'Virgin_Atlantic']].sum()`. -/
def ukCount (s : SessionRow) : Nat :=
  s.visit "British_Airways" + s.visit "Virgin_Atlantic"

/-- Embeds `user[['Lufthansa', 'Air_France']].sum()`. -/
def euCount (s : SessionRow) : Nat :=
  s.visit "Lufthansa" + s.visit "Air_France"

/-- Embeds `user['Ryanair']`. -/
def budgetCount (s : SessionRow) : Nat := s.visit "Ryanair"

/-- Embeds the geographic-preference derivation of
`create_alternative_tables` (lines 128-146): the if/elif chain over UK
carrier, EU carrier and budget visit counts. -/
def geoPreference (s : SessionRow) : String :=
  if 0 < ukCount s ∧ euCount s = 0 ∧ budgetCount s = 0 then "UK_focused"
  else if 0 < euCount s ∧ ukCount s = 0 ∧ budgetCount s = 0 then "EU_focused"
  else if 0 < budgetCount s ∧ ukCount s = 0 ∧ euCount s = 0 then
    "Budget_focused"
  else if 0 < ukCount s ∧ 0 < euCount s then "Pan_European"
  else if 0 < budgetCount s ∧ (0 < ukCount s ∨ 0 < euCount s) then
    "Mixed_Premium_Budget"
  else "No_clear_preference"

/-- Modelled from the spec: the affinity predicates as a fixed ordered rule
list, "evaluated by a fixed, ordered list of mutually exclusive predicates
over named entity subsets; the first matching rule in priority order
determines the label; if none match, a default no_clear_preference label
applies". -/
def geoRules : List ((SessionRow → Bool) × String) :=
  [(fun s => decide (0 < ukCount s ∧ euCount s = 0 ∧ budgetCount s = 0),
    "UK_focused"),
   (fun s => decide (0 < euCount s ∧ ukCount s = 0 ∧ budgetCount s = 0),
    "EU_focused"),
   (fun s => decide (0 < budgetCount s ∧ ukCount s = 0 ∧ euCount s = 0),
    "Budget_focused"),
   (fun s => decide (0 < ukCount s ∧ 0 < euCount s), "Pan_European"),
   (fun s => decide (0 < budgetCount s ∧ (0 < ukCount s ∨ 0 < euCount s)),
    "Mixed_Premium_Budget")]

/-- Modelled from the spec: the label of the first matching affinity rule,
defaulting to the no-clear-preference label. -/
def firstMatchLabel (s : SessionRow) : String :=
  ((geoRules.find? (fun rule => rule.1 s)).map Prod.snd).getD
    "No_clear_preference"

/-- The cumulative weight mass of the first `i` entries of a preference
list: the left endpoint of entry `i`'s selection interval. -/
def sumTo (l : Pref) (i : Nat) : ℚ := ((l.take i).map Prod.snd).sum

/-- The spec-level boost factor of claim C2: the product over all boost
rules of the rule's multiplier when the rule pairs `e` with an
already-visited entity (in either pair position), else 1. -/
def boostFactor (boosts : List ((String × String) × ℚ))
    (visited : List String) (e : String) : ℚ :=
  (boosts.map (fun rule =>
    if (rule.1.1 ∈ visited ∧ rule.1.2 = e)
        ∨ (rule.1.2 ∈ visited ∧ rule.1.1 = e) then rule.2
    else 1)).prod

/-- The multiplicative effect of one `boostStep` on the weight of entity
`e`: the rule's multiplier exactly when the step's taken branch multiplies
key `e`, else 1. -/
def ruleFactor (visited : List String) (v e : String)
    (rule : (String × String) × ℚ) : ℚ :=
  if rule.1.1 == v && !(visited.contains rule.1.2) then
    (if rule.1.2 = e then rule.2 else 1)
  else if rule.1.2 == v && !(visited.contains rule.1.1) then
    (if rule.1.1 = e then rule.2 else 1)
  else 1

/-! ### Counting lemmas for the contingency aggregator -/

/-- Summing an equality-indicator over a duplicate-free list that does not
contain the probed key gives 0. -/
theorem sum_indicator_not_mem (x : String) (b : Bool) :
    ∀ ts : List String, x ∉ ts →
      (ts.map (fun t => if x == t && b then (1 : Nat) else 0)).sum = 0 := by
  intro ts
  induction ts with
  | nil => intro _; rfl
  | cons t ts ih =>
    intro h
    rw [List.mem_cons, not_or] at h
    rw [List.map_cons, List.sum_cons, ih h.2, beq_false_of_ne h.1]
    rfl

/-- Summing an equality-indicator over a duplicate-free list containing the
probed key gives the indicator of the extra condition. -/
theorem sum_indicator_mem (x : String) (b : Bool) :
    ∀ ts : List String, ts.Nodup → x ∈ ts →
      (ts.map (fun t => if x == t && b then (1 : Nat) else 0)).sum
        = if b then 1 else 0 := by
  intro ts
  induction ts with
  | nil => intro _ h; simp at h
  | cons t ts ih =>
    intro hnd hx
    rcases List.nodup_cons.mp hnd with ⟨hnotmem, hnd2⟩
    rcases List.mem_cons.mp hx with h | h
    · subst h
      rw [List.map_cons, List.sum_cons, sum_indicator_not_mem x b ts hnotmem,
        beq_self_eq_true, Bool.true_and, Nat.add_zero]
    · have hne : x ≠ t := fun he => hnotmem (he ▸ h)
      rw [List.map_cons, List.sum_cons, ih hnd2 h, beq_false_of_ne hne,
        Bool.false_and]
      simp

/-- Partitioning a count by a key drawn from a duplicate-free cover of the
keys occurring in the list. -/
theorem countP_partition_key {σ : Type} (key : σ → String) (p : σ → Bool) :
    ∀ (l : List σ) (ts : List String), ts.Nodup → (∀ s ∈ l, key s ∈ ts) →
      (ts.map (fun t => l.countP (fun s => key s == t && p s))).sum
        = l.countP p := by
  intro l
  induction l with
  | nil => intro ts _ _; simp
  | cons s l ih =>
    intro ts hnd hmem
    have hs : key s ∈ ts := hmem s (List.mem_cons_self s l)
    have hl : ∀ x ∈ l, key x ∈ ts := fun x hx =>
      hmem x (List.mem_cons_of_mem s hx)
    calc (ts.map (fun t => (s :: l).countP (fun x => key x == t && p x))).sum
        = (ts.map (fun t => l.countP (fun x => key x == t && p x)
            + if key s == t && p s then 1 else 0)).sum := by
          simp only [List.countP_cons]
      _ = (ts.map (fun t => l.countP (fun x => key x == t && p x))).sum
            + (ts.map (fun t => if key s == t && p s then 1 else 0)).sum := by
          rw [← List.sum_map_add]
      _ = l.countP p + if p s then 1 else 0 := by
          rw [ih ts hnd hl, sum_indicator_mem (key s) (p s) ts hnd hs]
      _ = (s :: l).countP p := (List.countP_cons p s l).symm

/-- Sum of a 0/1 indicator over a list equals the count of the predicate. -/
theorem sum_ite_eq_countP {σ : Type} (p : σ → Bool) :
    ∀ l : List σ,
      (l.map (fun s => if p s then (1 : Nat) else 0)).sum = l.countP p := by
  intro l
  induction l with
  | nil => rfl
  | cons s l ih => simp [List.countP_cons, ih, Nat.add_comm]

/-- C3: for every contingency table built by the aggregator from a set of
sessions, and for every entity row, the sum of that row's cells across all
group columns equals the number of sessions in which that entity's visit
flag is 1. -/
theorem row_sum_eq_total_visits (sessions : List SessionRow) (a : String) :
    ((userTypes sessions).map (fun t => cell sessions a t)).sum
      = sessions.countP (fun s => s.visit a == 1) := by
  unfold userTypes cell
  exact countP_partition_key (fun s => s.user_type) (fun s => s.visit a == 1)
    sessions _ (List.nodup_dedup _)
    (fun s hs => List.mem_dedup.mpr (List.mem_map_of_mem _ hs))

/-- A session with user type `"budget"` that visited two airlines:
British Airways and Ryanair. -/
def rowBARY : SessionRow :=
  ⟨"budget", fun a => if a == "British_Airways" || a == "Ryanair" then 1 else 0⟩

/-- C4 counterexample: for the table built from a single session that
visited two airlines, the `"budget"` column sums to 2, while the number of
sessions whose derived group is `"budget"` (the population of the group)
is 1, so the column sum does not equal the population. -/
theorem col_sum_ne_population :
    (AIRLINES.map (fun a => cell [rowBARY] a "budget")).sum = 2
    ∧ ([rowBARY] : List SessionRow).countP
        (fun s => s.user_type == "budget") = 1 := by
  constructor <;> rfl

/-- C4 amended: for every contingency table built by the aggregator, and
for every group column, the sum of that column's cells across all entity
rows equals the total number of visit flags set to 1 over the sessions of
that group — the population of the group only when every such session
visited exactly one entity. -/
theorem col_sum_eq_total_flags (sessions : List SessionRow)
    (cols : List String) (t : String) :
    (cols.map (fun a => cell sessions a t)).sum
      = ((sessions.filter (fun s => s.user_type == t)).map
          (fun s => cols.countP (fun a => s.visit a == 1))).sum := by
  induction cols with
  | nil => simp
  | cons a cols ih =>
    simp only [List.map_cons, List.sum_cons, List.countP_cons]
    rw [List.sum_map_add, ih]
    have hcell : cell sessions a t
        = (sessions.filter (fun s => s.user_type == t)).countP
            (fun s => s.visit a == 1) := by
      unfold cell
      rw [List.countP_filter]
      exact List.countP_congr (fun s _ => by rw [Bool.and_comm])
    rw [hcell, ← sum_ite_eq_countP (fun s => s.visit a == 1)
      (sessions.filter (fun s => s.user_type == t))]
    exact Nat.add_comm _ _

/-! ### Early termination of the additional-visits loop -/

/-- Once the total adjusted weight for the current visited set is zero,
every remaining iteration of the additional-visits loop is skipped: the
loop returns the current state unchanged and raises nothing. -/
theorem additionalVisits_of_total_eq_zero (prefs : Pref)
    (boosts : List ((String × String) × ℚ)) (visits : List (String × Nat))
    (visited : List String)
    (h0 : totalProb (adjustedProbs prefs boosts visited) = 0) :
    ∀ (m : Nat) (rs : List ℚ),
      additionalVisits prefs boosts m rs visits visited
        = some (visits, visited) := by
  intro m
  induction m with
  | zero => intro rs; rfl
  | succ m ih =>
    intro rs
    have hneg : ¬ (0 < totalProb (adjustedProbs prefs boosts visited)) := by
      rw [h0]; exact lt_irrefl 0
    simp only [additionalVisits]
    rw [if_neg hneg]
    exact ih rs.tail

/-- C5: if during a session's additional draws the total remaining weight
(after boosts and zeroing of visited entities) is zero, the simulator
raises no exception and returns a session containing exactly the entities
chosen before the weight reached zero — with `m ≥ 1` draws still pending
out of the sampled count `k = visited.length + m`, the final visited count
stays below `k` and no further entity is ever added. -/
theorem zero_weight_early_stop (prefs : Pref)
    (boosts : List ((String × String) × ℚ)) (k m : Nat) (rs : List ℚ)
    (visits : List (String × Nat)) (visited : List String)
    (hm : 1 ≤ m) (hk : visited.length + m = k)
    (h0 : totalProb (adjustedProbs prefs boosts visited) = 0) :
    additionalVisits prefs boosts m rs visits visited
      = some (visits, visited)
    ∧ visited.length < k :=
  ⟨additionalVisits_of_total_eq_zero prefs boosts visits visited h0 m rs,
    by omega⟩

/-- A degenerate preference list whose whole mass sits on the single
airline `"X"`. -/
def prefsXonly : Pref := [("X", 1), ("Y", 0), ("Z", 0)]

/-- C5 witness: after visiting `"X"` under `prefsXonly` with no boosts the
remaining weight is zero, and with one draw pending out of a sampled count
of 2 the loop returns the one-entity session unchanged. -/
theorem zero_weight_early_stop_witness :
    (1 ≤ 1 ∧ ([("X" : String)].length + 1 = 2)
      ∧ totalProb (adjustedProbs prefsXonly [] ["X"]) = 0)
    ∧ additionalVisits prefsXonly [] 1 [] [("X", 1), ("Y", 0), ("Z", 0)] ["X"]
        = some ([("X", 1), ("Y", 0), ("Z", 0)], ["X"])
    ∧ (["X"] : List String).length < 2 := by
  refine ⟨⟨by decide, by decide, by with_unfolding_all decide⟩, ?_, by decide⟩
  exact (zero_weight_early_stop prefsXonly [] 2 1 []
    [("X", 1), ("Y", 0), ("Z", 0)] ["X"] (by decide) (by decide)
    (by with_unfolding_all decide)).1

/-! ### Catalog validation happens only at draw time -/

/-- A segment with weight 1 and an empty preference list. -/
def segUnit : Segment :=
  { weight := 1, preferences := [], avg_visits := 0, cooccurrence_boost := [] }

/-- A segment with weight 0.5 and an empty preference list. -/
def segHalf : Segment :=
  { weight := 0.5, preferences := [], avg_visits := 0,
    cooccurrence_boost := [] }

/-- A segment catalog whose weights sum to 3/2, violating the
weights-sum-to-1 invariant. -/
def badCatalog : List (String × Segment) := [("seg_a", segUnit), ("seg_b", segHalf)]

/-- C7 counterexample: a segment catalog whose weights sum to 3/2 is
constructed without any failure — `USER_TYPES` is a plain literal and
nothing validates it — and the error first surfaces at the simulation draw:
`generate_user_type` (the first random draw of the pipeline) fails on it.
So construction does not fail before a draw is attempted. -/
theorem catalog_error_surfaces_at_draw :
    (badCatalog.map (fun p => p.2.weight)).sum = 3 / 2
    ∧ npAtol < |(3 / 2 : ℚ) - 1|
    ∧ generate_user_type badCatalog (1 / 2) = none := by
  refine ⟨by with_unfolding_all decide, by with_unfolding_all decide,
    by with_unfolding_all decide⟩

/-- C7 amended: the catalog literal itself is never validated; a catalog
whose segment weights do not sum to 1 within numpy's tolerance (or that
contains a negative weight) instead makes the segment draw
`generate_user_type` fail, i.e. the error surfaces at simulation time. -/
theorem invalid_catalog_fails_at_draw (catalog : List (String × Segment))
    (r : ℚ)
    (h : npAtol < |(catalog.map (fun p => p.2.weight)).sum - 1|
      ∨ ∃ p ∈ catalog, p.2.weight < 0) :
    generate_user_type catalog r = none := by
  unfold generate_user_type npChoice
  simp only [List.map_map]
  split
  · rfl
  · split
    · rfl
    · exfalso
      rename_i hneg htol
      rcases h with h | ⟨p, hp, hpneg⟩
      · exact htol h
      · refine hneg (List.any_eq_true.mpr
          ⟨p.2.weight, ?_, decide_eq_true hpneg⟩)
        exact List.mem_map_of_mem
          (Prod.snd ∘ fun p : String × Segment => (p.1, p.2.weight)) hp

/-- C7 witness: the amended claim applied to the concrete catalog whose
weights sum to 3/2. -/
theorem invalid_catalog_fails_at_draw_witness :
    (npAtol < |(badCatalog.map (fun p => p.2.weight)).sum - 1|
      ∨ ∃ p ∈ badCatalog, p.2.weight < 0)
    ∧ generate_user_type badCatalog (1 / 2) = none := by
  refine ⟨Or.inl (by with_unfolding_all decide), ?_⟩
  exact invalid_catalog_fails_at_draw badCatalog (1 / 2)
    (Or.inl (by with_unfolding_all decide))

/-! ### Affinity grouping -/

/-- A session that visited British Airways, Lufthansa and Ryanair: a UK
carrier, an EU carrier and the budget carrier all at once. -/
def rowAllRegions : SessionRow :=
  ⟨"mixed", fun a =>
    if a == "British_Airways" || a == "Lufthansa" || a == "Ryanair" then 1
    else 0⟩

/-- C8 counterexample: the Pan_European predicate and the
Mixed_Premium_Budget predicate of the affinity grouping both hold for the
session that visited a UK carrier, an EU carrier and Ryanair, so the
predicates are not mutually exclusive; the chain assigns the earlier label
Pan_European. -/
theorem geo_predicates_not_exclusive :
    (0 < ukCount rowAllRegions ∧ 0 < euCount rowAllRegions)
    ∧ (0 < budgetCount rowAllRegions
        ∧ (0 < ukCount rowAllRegions ∨ 0 < euCount rowAllRegions))
    ∧ geoPreference rowAllRegions = "Pan_European" := by decide

/-- C8 amended: the affinity predicates are not mutually exclusive
(Pan_European and Mixed_Premium_Budget overlap), but the assigned label is
that of the first matching rule in the fixed priority order UK_focused,
EU_focused, Budget_focused, Pan_European, Mixed_Premium_Budget, and a
session matching no rule receives the default No_clear_preference label:
the source's if/elif chain computes exactly the first-match semantics. -/
theorem geo_label_first_match (s : SessionRow) :
    geoPreference s = firstMatchLabel s := by
  unfold geoPreference firstMatchLabel geoRules
  by_cases h1 : 0 < ukCount s ∧ euCount s = 0 ∧ budgetCount s = 0
  · rw [if_pos h1]
    simp [List.find?, decide_eq_true h1]
  rw [if_neg h1]
  by_cases h2 : 0 < euCount s ∧ ukCount s = 0 ∧ budgetCount s = 0
  · rw [if_pos h2]
    simp [List.find?, decide_eq_false h1, decide_eq_true h2]
  rw [if_neg h2]
  by_cases h3 : 0 < budgetCount s ∧ ukCount s = 0 ∧ euCount s = 0
  · rw [if_pos h3]
    simp [List.find?, decide_eq_false h1, decide_eq_false h2,
      decide_eq_true h3]
  rw [if_neg h3]
  by_cases h4 : 0 < ukCount s ∧ 0 < euCount s
  · rw [if_pos h4]
    simp [List.find?, decide_eq_false h1, decide_eq_false h2,
      decide_eq_false h3, decide_eq_true h4]
  rw [if_neg h4]
  by_cases h5 : 0 < budgetCount s ∧ (0 < ukCount s ∨ 0 < euCount s)
  · rw [if_pos h5]
    simp [List.find?, decide_eq_false h1, decide_eq_false h2,
      decide_eq_false h3, decide_eq_false h4, decide_eq_true h5]
  rw [if_neg h5]
  simp [List.find?, decide_eq_false h1, decide_eq_false h2,
    decide_eq_false h3, decide_eq_false h4, decide_eq_false h5]

/-! ### Scenario segments for the first-draw claims -/

/-- The three-entity scenario segment of the spec: preferences X 0.6,
Y 0.3, Z 0.1, weight 1, no boosts. -/
def segXYZ : Segment :=
  { weight := 1, preferences := [("X", 0.6), ("Y", 0.3), ("Z", 0.1)],
    avg_visits := 1, cooccurrence_boost := [] }

/-- The entity catalog of the three-entity scenario. -/
def XYZ : List String := ["X", "Y", "Z"]

/-- A segment whose preference weights are non-negative with positive
total 3/2 but do not sum to 1. -/
def segHalves : Segment :=
  { weight := 1, preferences := [("X", 0.5), ("Y", 0.5), ("Z", 0.5)],
    avg_visits := 1, cooccurrence_boost := [] }

/-- C6 counterexample: for a segment whose preference weights are
non-negative with positive total but do not sum to 1, the first draw is not
performed at all: `np.random.choice` rejects the un-normalized weights
(`ValueError: probabilities do not sum to 1`), so `generate_user_visits`
errors instead of drawing a first entity. -/
theorem first_draw_not_normalized :
    (∀ p ∈ segHalves.preferences, 0 ≤ p.2)
    ∧ 0 < totalProb segHalves.preferences
    ∧ totalProb segHalves.preferences ≠ 1
    ∧ generate_user_visits XYZ segHalves 1 (1 / 2) [] = none := by
  refine ⟨by with_unfolding_all decide, by with_unfolding_all decide,
    by with_unfolding_all decide, by with_unfolding_all decide⟩

/-- C9 counterexample: in the three-entity scenario with avg_interactions
1, the Poisson sample can still be 2, and then the session flags two
entities, not exactly one: the claim's "always ... exactly one entity
flagged" fails for the draw sequence with Poisson sample 2 and uniform
draws 0, 0. -/
theorem poisson_two_gives_two_visits :
    generate_user_visits XYZ segXYZ 2 0 [0]
      = some [("X", 1), ("Y", 1), ("Z", 0)]
    ∧ countOnes [("X", 1), ("Y", 1), ("Z", 0)] = 2 := by
  refine ⟨by with_unfolding_all decide, by decide⟩

/-! ### Inverse-CDF characterization of the weighted draw -/

/-- Cumulative sums of a non-negative weight list are non-negative. -/
theorem take_sum_nonneg (ws : List ℚ) (i : Nat) (hnn : ∀ w ∈ ws, 0 ≤ w) :
    0 ≤ (ws.take i).sum :=
  List.sum_nonneg (fun w hw => hnn w (List.take_subset i ws hw))

/-- The inverse-CDF search selects index `i` exactly when the uniform draw
falls into the interval of entry `i`: at or above the cumulative weight
before `i` and below it plus entry `i`'s weight. -/
theorem pickIdx_of_interval :
    ∀ (ws : List ℚ) (i : Nat) (r : ℚ), (∀ w ∈ ws, 0 ≤ w) →
      ∀ hlt : i < ws.length, (ws.take i).sum ≤ r →
      r < (ws.take i).sum + ws.get ⟨i, hlt⟩ →
      pickIdx ws r = some i := by
  intro ws
  induction ws with
  | nil => intro i r _ hlt; exact absurd hlt (Nat.not_lt_zero i)
  | cons w ws ih =>
    intro i r hnn hlt hlo hhi
    cases i with
    | zero =>
      have hrw : r < w := by simpa using hhi
      unfold pickIdx
      rw [if_pos hrw]
    | succ i =>
      have hws : ∀ x ∈ ws, 0 ≤ x := fun x hx =>
        hnn x (List.mem_cons_of_mem w hx)
      have htake : ((w :: ws).take (i + 1)).sum = w + (ws.take i).sum := by
        simp
      have hnlt : ¬ r < w := by
        rw [htake] at hlo
        have := take_sum_nonneg ws i hws
        exact not_lt.mpr (by linarith)
      have hlt2 : i < ws.length := Nat.lt_of_succ_lt_succ (by simpa using hlt)
      have hlo2 : (ws.take i).sum ≤ r - w := by
        rw [htake] at hlo; linarith
      have hhi2 : r - w < (ws.take i).sum + ws.get ⟨i, hlt2⟩ := by
        rw [htake] at hhi
        have hget : (w :: ws).get ⟨i + 1, hlt⟩ = ws.get ⟨i, hlt2⟩ := rfl
        rw [hget] at hhi
        linarith
      unfold pickIdx
      rw [if_neg hnlt, ih i (r - w) hws hlt2 hlo2 hhi2]
      rfl

/-- The inverse-CDF search always selects some valid index when the uniform
draw lies below the total weight. -/
theorem pickIdx_total :
    ∀ (ws : List ℚ) (r : ℚ), 0 ≤ r → r < ws.sum →
      ∃ i, pickIdx ws r = some i ∧ i < ws.length := by
  intro ws
  induction ws with
  | nil =>
    intro r h0 hr
    rw [List.sum_nil] at hr
    exact absurd hr (not_lt.mpr h0)
  | cons w ws ih =>
    intro r h0 hr
    by_cases hw : r < w
    · exact ⟨0, by unfold pickIdx; rw [if_pos hw], Nat.succ_pos _⟩
    · have h0w : 0 ≤ r - w := by linarith [not_lt.mp hw]
      have hrw : r - w < ws.sum := by
        rw [List.sum_cons] at hr; linarith
      obtain ⟨i, hp, hl⟩ := ih (r - w) h0w hrw
      refine ⟨i + 1, ?_, Nat.succ_lt_succ hl⟩
      unfold pickIdx
      rw [if_neg hw, hp]
      rfl

/-- For non-negative weights summing exactly to 1, the numpy draw passes
both validity checks and reduces to the plain inverse-CDF search. -/
theorem npChoice_of_sum_one (items : Pref) (r : ℚ)
    (hnn : ∀ p ∈ items, 0 ≤ p.2) (hsum : totalProb items = 1) :
    npChoice items r
      = (pickIdx (items.map Prod.snd) r).bind
          (fun i => (items.get? i).map Prod.fst) := by
  unfold totalProb at hsum
  have hneg : (items.map Prod.snd).any (fun w => decide (w < 0)) = false := by
    rw [List.any_eq_false]
    intro w hw
    rcases List.mem_map.mp hw with ⟨p, hp, rfl⟩
    simp [not_lt.mpr (hnn p hp)]
  unfold npChoice
  rw [if_neg (by rw [hneg]; exact Bool.false_ne_true),
    if_neg (by rw [hsum]; norm_num [npAtol]), hsum, mul_one]

/-- Membership of the numpy draw's result: a selected key is a key of the
weight list. -/
theorem npChoice_mem (items : Pref) (r : ℚ) (a : String)
    (h : npChoice items r = some a) : a ∈ items.map Prod.fst := by
  simp only [npChoice] at h
  split at h
  · exact absurd h (by simp)
  · split at h
    · exact absurd h (by simp)
    · rcases Option.bind_eq_some.mp h with ⟨i, _, hmap⟩
      rcases Option.map_eq_some'.mp hmap with ⟨p, hget, rfl⟩
      exact List.mem_map_of_mem Prod.fst (List.get?_mem hget)

/-- For non-negative weights summing to 1, the numpy draw at `r` selects
the key at index `i` whenever `r` lies in entry `i`'s cumulative-weight
interval, whose width is that entry's weight. -/
theorem npChoice_get_of_interval (items : Pref) (r : ℚ) (i : Nat)
    (hnn : ∀ p ∈ items, 0 ≤ p.2) (hsum : totalProb items = 1)
    (hi : i < items.length) (hlo : sumTo items i ≤ r)
    (hhi : r < sumTo items i + (items.get ⟨i, hi⟩).2) :
    npChoice items r = some (items.get ⟨i, hi⟩).1 := by
  have hnn2 : ∀ w ∈ items.map Prod.snd, 0 ≤ w := by
    intro w hw
    rcases List.mem_map.mp hw with ⟨p, hp, rfl⟩
    exact hnn p hp
  have hlt : i < (items.map Prod.snd).length := by
    rw [List.length_map]; exact hi
  have htake : ((items.map Prod.snd).take i).sum = sumTo items i := by
    rw [← List.map_take]; rfl
  have hget2 : (items.map Prod.snd).get ⟨i, hlt⟩ = (items.get ⟨i, hi⟩).2 := by
    simp
  have hpick := pickIdx_of_interval (items.map Prod.snd) i r hnn2 hlt
    (by rw [htake]; exact hlo) (by rw [htake, hget2]; exact hhi)
  rw [npChoice_of_sum_one items r hnn hsum, hpick]
  show (items.get? i).map Prod.fst = some (items.get ⟨i, hi⟩).1
  rw [List.get?_eq_getElem?, List.getElem?_eq_getElem hi]
  rfl

/-- C6 amended: the first draw does not normalize by itself — it succeeds
precisely on weight vectors numpy accepts.  For every preference list with
non-negative weights summing exactly to 1 and every uniform draw
`r ∈ [0,1)`, the draw returns some entity, and it returns the entity at
index `i` exactly when `r` falls in that entity's cumulative interval,
whose width equals the entity's weight (= weight / total, the total
being 1). -/
theorem first_draw_with_sum_one (prefs : Pref) (r : ℚ)
    (hnn : ∀ p ∈ prefs, 0 ≤ p.2) (hsum : totalProb prefs = 1)
    (h0 : 0 ≤ r) (h1 : r < 1) :
    (∃ a, npChoice prefs r = some a)
    ∧ ∀ (i : Nat) (hi : i < prefs.length),
        sumTo prefs i ≤ r → r < sumTo prefs i + (prefs.get ⟨i, hi⟩).2 →
        npChoice prefs r = some (prefs.get ⟨i, hi⟩).1 := by
  constructor
  · have hr : r < (prefs.map Prod.snd).sum := by
      unfold totalProb at hsum
      rw [hsum]
      exact h1
    obtain ⟨i, hp, hl⟩ := pickIdx_total (prefs.map Prod.snd) r h0 hr
    rw [List.length_map] at hl
    refine ⟨(prefs.get ⟨i, hl⟩).1, ?_⟩
    rw [npChoice_of_sum_one prefs r hnn hsum, hp]
    show (prefs.get? i).map Prod.fst = some (prefs.get ⟨i, hl⟩).1
    rw [List.get?_eq_getElem?, List.getElem?_eq_getElem hl]
    rfl
  · intro i hi hlo hhi
    exact npChoice_get_of_interval prefs r i hnn hsum hi hlo hhi

/-- C6 witness: the amended claim applied to the three-entity scenario
preferences at the uniform draw 7/10. -/
theorem first_draw_with_sum_one_witness :
    ((∀ p ∈ segXYZ.preferences, 0 ≤ p.2)
      ∧ totalProb segXYZ.preferences = 1
      ∧ (0 : ℚ) ≤ 7 / 10 ∧ (7 : ℚ) / 10 < 1)
    ∧ ∃ a, npChoice segXYZ.preferences (7 / 10) = some a := by
  refine ⟨⟨by with_unfolding_all decide, by with_unfolding_all decide,
    by norm_num, by norm_num⟩, ?_⟩
  exact (first_draw_with_sum_one segXYZ.preferences (7 / 10)
    (by with_unfolding_all decide) (by with_unfolding_all decide)
    (by norm_num) (by norm_num)).1

/-- C9 amended: in the three-entity scenario (preferences X 0.6, Y 0.3,
Z 0.1, no boosts, avg_interactions 1) the session has exactly one entity
flagged 1 — distributed by the stated preferences: X on draws below 0.6,
Y on [0.6, 0.9), Z on [0.9, 1) — only when the Poisson sample is ≤ 1; a
Poisson sample ≥ 2 (possible under avg 1) adds further entities. -/
theorem single_visit_when_poisson_le_one (n : Nat) (r : ℚ)
    (hn : n ≤ 1) (h0 : 0 ≤ r) (h1 : r < 1) :
    (r < 0.6 → generate_user_visits XYZ segXYZ n r []
        = some [("X", 1), ("Y", 0), ("Z", 0)])
    ∧ (0.6 ≤ r → r < 0.9 → generate_user_visits XYZ segXYZ n r []
        = some [("X", 0), ("Y", 1), ("Z", 0)])
    ∧ (0.9 ≤ r → generate_user_visits XYZ segXYZ n r []
        = some [("X", 0), ("Y", 0), ("Z", 1)])
    ∧ ∀ v, generate_user_visits XYZ segXYZ n r [] = some v →
        countOnes v = 1 := by
  have hnn : ∀ p ∈ segXYZ.preferences, 0 ≤ p.2 := by
    with_unfolding_all decide
  have hsum : totalProb segXYZ.preferences = 1 := by
    with_unfolding_all decide
  have hmax : max 1 n = 1 := by omega
  have hgen : ∀ a, npChoice segXYZ.preferences r = some a →
      generate_user_visits XYZ segXYZ n r []
        = some (dset (XYZ.map (fun x => (x, (0 : Nat)))) a 1) := by
    intro a ha
    simp only [generate_user_visits]
    rw [ha, hmax]
    rfl
  have hchoiceX : r < 0.6 → npChoice segXYZ.preferences r = some "X" := by
    intro hx
    have hi : 0 < segXYZ.preferences.length := by decide
    have hlo : sumTo segXYZ.preferences 0 ≤ r := by
      have e : sumTo segXYZ.preferences 0 = 0 := rfl
      rw [e]; exact h0
    have hhi : r < sumTo segXYZ.preferences 0
        + (segXYZ.preferences.get ⟨0, hi⟩).2 := by
      have e : sumTo segXYZ.preferences 0 = 0 := rfl
      have eg : (segXYZ.preferences.get ⟨0, hi⟩).2 = 0.6 := rfl
      rw [e, eg, zero_add]
      exact hx
    exact npChoice_get_of_interval segXYZ.preferences r 0 hnn hsum hi hlo hhi
  have hchoiceY : 0.6 ≤ r → r < 0.9 →
      npChoice segXYZ.preferences r = some "Y" := by
    intro hy1 hy2
    have hi : 1 < segXYZ.preferences.length := by decide
    have hlo : sumTo segXYZ.preferences 1 ≤ r := by
      have e : sumTo segXYZ.preferences 1 = 0.6 := by
        with_unfolding_all decide
      rw [e]; exact hy1
    have hhi : r < sumTo segXYZ.preferences 1
        + (segXYZ.preferences.get ⟨1, hi⟩).2 := by
      have e : sumTo segXYZ.preferences 1 = 0.6 := by
        with_unfolding_all decide
      have eg : (segXYZ.preferences.get ⟨1, hi⟩).2 = 0.3 := rfl
      have e2 : (0.6 : ℚ) + 0.3 = 0.9 := by with_unfolding_all decide
      rw [e, eg, e2]
      exact hy2
    exact npChoice_get_of_interval segXYZ.preferences r 1 hnn hsum hi hlo hhi
  have hchoiceZ : 0.9 ≤ r → npChoice segXYZ.preferences r = some "Z" := by
    intro hz
    have hi : 2 < segXYZ.preferences.length := by decide
    have hlo : sumTo segXYZ.preferences 2 ≤ r := by
      have e : sumTo segXYZ.preferences 2 = 0.9 := by
        with_unfolding_all decide
      rw [e]; exact hz
    have hhi : r < sumTo segXYZ.preferences 2
        + (segXYZ.preferences.get ⟨2, hi⟩).2 := by
      have e : sumTo segXYZ.preferences 2 = 0.9 := by
        with_unfolding_all decide
      have eg : (segXYZ.preferences.get ⟨2, hi⟩).2 = 0.1 := rfl
      have e2 : (0.9 : ℚ) + 0.1 = 1 := by with_unfolding_all decide
      rw [e, eg, e2]
      exact h1
    exact npChoice_get_of_interval segXYZ.preferences r 2 hnn hsum hi hlo hhi
  have hA : r < 0.6 → generate_user_visits XYZ segXYZ n r []
      = some [("X", 1), ("Y", 0), ("Z", 0)] := by
    intro hx
    rw [hgen "X" (hchoiceX hx)]
    rfl
  have hB : 0.6 ≤ r → r < 0.9 → generate_user_visits XYZ segXYZ n r []
      = some [("X", 0), ("Y", 1), ("Z", 0)] := by
    intro hy1 hy2
    rw [hgen "Y" (hchoiceY hy1 hy2)]
    rfl
  have hC : 0.9 ≤ r → generate_user_visits XYZ segXYZ n r []
      = some [("X", 0), ("Y", 0), ("Z", 1)] := by
    intro hz
    rw [hgen "Z" (hchoiceZ hz)]
    rfl
  refine ⟨hA, hB, hC, ?_⟩
  intro v hv
  rcases lt_or_le r 0.6 with hx | hx
  · rw [hA hx] at hv
    obtain rfl := Option.some.inj hv
    decide
  rcases lt_or_le r 0.9 with hy | hy
  · rw [hB hx hy] at hv
    obtain rfl := Option.some.inj hv
    decide
  rw [hC hy] at hv
  obtain rfl := Option.some.inj hv
  decide

/-- C9 witness: the amended claim at Poisson sample 0 and uniform draw 1/2,
which flags exactly the entity X. -/
theorem single_visit_when_poisson_le_one_witness :
    ((0 : Nat) ≤ 1 ∧ (0 : ℚ) ≤ 1 / 2 ∧ (1 : ℚ) / 2 < 1)
    ∧ generate_user_visits XYZ segXYZ 0 (1 / 2) []
        = some [("X", 1), ("Y", 0), ("Z", 0)] := by
  refine ⟨⟨by decide, by norm_num, by norm_num⟩, ?_⟩
  exact (single_visit_when_poisson_le_one 0 (1 / 2) (by decide) (by norm_num)
    (by norm_num)).1 (by norm_num)

/-! ### Session well-formedness invariants -/

/-- Multiplying one key's weight preserves the key sequence. -/
theorem keys_mulKey (l : Pref) (k : String) (b : ℚ) :
    (mulKey l k b).map Prod.fst = l.map Prod.fst := by
  unfold mulKey
  rw [List.map_map]
  refine List.map_congr_left (fun p _ => ?_)
  show (if p.1 = k then (p.1, p.2 * b) else p).1 = p.1
  split <;> rfl

/-- One boost-rule step preserves the key sequence. -/
theorem keys_boostStep (visited : List String) (v : String) (acc : Pref)
    (rule : (String × String) × ℚ) :
    (boostStep visited v acc rule).map Prod.fst = acc.map Prod.fst := by
  unfold boostStep
  split
  · exact keys_mulKey acc rule.1.2 rule.2
  · split
    · exact keys_mulKey acc rule.1.1 rule.2
    · rfl

/-- Folding boost rules for one visited entity preserves the key
sequence. -/
theorem keys_boostFold (visited : List String) (v : String) :
    ∀ (boosts : List ((String × String) × ℚ)) (acc : Pref),
      (boosts.foldl (boostStep visited v) acc).map Prod.fst
        = acc.map Prod.fst := by
  intro boosts
  induction boosts with
  | nil => intro acc; rfl
  | cons rule boosts ih =>
    intro acc
    rw [List.foldl_cons, ih, keys_boostStep]

/-- The full boost pass preserves the key sequence, whatever list is folded
over and whatever list the membership tests consult. -/
theorem keys_applyBoostsAux (boosts : List ((String × String) × ℚ))
    (W : List String) :
    ∀ (vs : List String) (acc : Pref),
      (vs.foldl (fun acc v => boosts.foldl (boostStep W v) acc) acc).map
          Prod.fst
        = acc.map Prod.fst := by
  intro vs
  induction vs with
  | nil => intro acc; rfl
  | cons v vs ih =>
    intro acc
    rw [List.foldl_cons, ih, keys_boostFold]

/-- `applyBoosts` preserves the key sequence of the preference list. -/
theorem keys_applyBoosts (boosts : List ((String × String) × ℚ))
    (visited : List String) (probs : Pref) :
    (applyBoosts boosts visited probs).map Prod.fst = probs.map Prod.fst :=
  keys_applyBoostsAux boosts visited visited probs

/-- Renormalizing preserves the key sequence. -/
theorem keys_normalizeP (l : Pref) (t : ℚ) :
    (normalizeP l t).map Prod.fst = l.map Prod.fst := by
  unfold normalizeP
  rw [List.map_map]
  exact List.map_congr_left (fun p _ => rfl)

/-- A key of `dset l k v` is a key of `l` or the assigned key itself. -/
theorem mem_keys_dset {β : Type} (l : List (String × β)) (k x : String)
    (v : β) (h : x ∈ (dset l k v).map Prod.fst) :
    x ∈ l.map Prod.fst ∨ x = k := by
  unfold dset at h
  split at h
  · left
    rw [List.map_map] at h
    rcases List.mem_map.mp h with ⟨p, hp, hx⟩
    have hx2 : x = p.1 := by
      rw [← hx]
      show (if p.1 = k then (p.1, v) else p).1 = p.1
      split <;> rfl
    exact hx2 ▸ List.mem_map_of_mem Prod.fst hp
  · rw [List.map_append] at h
    rcases List.mem_append.mp h with h | h
    · exact Or.inl h
    · right
      simpa using h

/-- Assigning to a key that is already present preserves the key
sequence. -/
theorem keys_dset_of_mem {β : Type} (l : List (String × β)) (k : String)
    (v : β) (h : k ∈ l.map Prod.fst) :
    (dset l k v).map Prod.fst = l.map Prod.fst := by
  unfold dset
  rcases List.mem_map.mp h with ⟨p, hp, hk⟩
  rw [if_pos (List.any_eq_true.mpr ⟨p, hp, by rw [← hk]; simp⟩)]
  rw [List.map_map]
  refine List.map_congr_left (fun q _ => ?_)
  show (if q.1 = k then (q.1, v) else q).1 = q.1
  split <;> rfl

/-- An entry of `dset l k v` is an entry of `l` or carries the assigned
value. -/
theorem mem_dset {β : Type} (l : List (String × β)) (k : String) (v : β)
    (p : String × β) (h : p ∈ dset l k v) : p ∈ l ∨ p.2 = v := by
  unfold dset at h
  split at h
  · rcases List.mem_map.mp h with ⟨q, hq, rfl⟩
    by_cases hc : q.1 = k
    · right
      simp [hc]
    · left
      simpa [hc] using hq
  · rcases List.mem_append.mp h with h | h
    · exact Or.inl h
    · right
      have := List.mem_singleton.mp h
      rw [this]

/-- Flagging a key with 1 never decreases the number of 1-flags. -/
theorem countOnes_le_dset_one (l : List (String × Nat)) (k : String) :
    countOnes l ≤ countOnes (dset l k 1) := by
  unfold countOnes dset
  split
  · rw [List.countP_map]
    refine List.countP_mono_left (fun p _ hp => ?_)
    by_cases hc : p.1 = k
    · simp [Function.comp, hc]
    · simpa [Function.comp, hc] using hp
  · rw [List.countP_append]
    exact Nat.le_add_right _ _

/-- Flagging a present key with 1 makes the number of 1-flags positive. -/
theorem countOnes_dset_one_pos (l : List (String × Nat)) (k : String)
    (h : k ∈ l.map Prod.fst) : 0 < countOnes (dset l k 1) := by
  unfold countOnes
  rw [List.countP_pos_iff]
  rcases List.mem_map.mp h with ⟨p, hp, rfl⟩
  refine ⟨(p.1, 1), ?_, by simp⟩
  unfold dset
  rw [if_pos (List.any_eq_true.mpr ⟨p, hp, by simp⟩)]
  refine List.mem_map.mpr ⟨p, hp, ?_⟩
  simp

/-- A key of the zeroed preference list is a key of the underlying list or
one of the zeroed (visited) keys. -/
theorem mem_keys_zeroVisited (e : String) :
    ∀ (vs : List String) (acc : Pref),
      e ∈ (zeroVisited vs acc).map Prod.fst →
      e ∈ acc.map Prod.fst ∨ e ∈ vs := by
  intro vs
  induction vs with
  | nil => intro acc h; exact Or.inl h
  | cons v vs ih =>
    intro acc h
    unfold zeroVisited at h
    rw [List.foldl_cons] at h
    rcases ih (dset acc v 0) h with h2 | h2
    · rcases mem_keys_dset acc v e 0 h2 with h3 | h3
      · exact Or.inl h3
      · exact Or.inr (by rw [h3]; exact List.mem_cons_self v vs)
    · exact Or.inr (List.mem_cons_of_mem v h2)

/-- A key of the adjusted probability list is a preferences key or a
visited entity. -/
theorem mem_keys_adjustedProbs (prefs : Pref)
    (boosts : List ((String × String) × ℚ)) (visited : List String)
    (e : String)
    (h : e ∈ (adjustedProbs prefs boosts visited).map Prod.fst) :
    e ∈ prefs.map Prod.fst ∨ e ∈ visited := by
  unfold adjustedProbs at h
  rcases mem_keys_zeroVisited e visited _ h with h2 | h2
  · rw [keys_applyBoosts] at h2
    exact Or.inl h2
  · exact Or.inr h2

/-- Loop invariant of the additional-visits loop: when it returns a state,
the visit record still has exactly the catalog keys, all its values are
binary, and the number of 1-flags never decreased. -/
theorem additionalVisits_invariant (prefs : Pref)
    (boosts : List ((String × String) × ℚ)) (entities : List String)
    (hp : ∀ x ∈ prefs.map Prod.fst, x ∈ entities) :
    ∀ (m : Nat) (rs : List ℚ) (visits : List (String × Nat))
      (visited : List String) (out : List (String × Nat) × List String),
      visits.map Prod.fst = entities →
      (∀ q ∈ visits, q.2 = 0 ∨ q.2 = 1) →
      (∀ x ∈ visited, x ∈ entities) →
      additionalVisits prefs boosts m rs visits visited = some out →
      out.1.map Prod.fst = entities
      ∧ (∀ q ∈ out.1, q.2 = 0 ∨ q.2 = 1)
      ∧ countOnes visits ≤ countOnes out.1 := by
  intro m
  induction m with
  | zero =>
    intro rs visits visited out hkeys hvals _ heq
    simp only [additionalVisits] at heq
    cases heq
    exact ⟨hkeys, hvals, le_refl _⟩
  | succ m ih =>
    intro rs visits visited out hkeys hvals hvis heq
    simp only [additionalVisits] at heq
    split at heq
    · split at heq
      · rename_i a ha
        have hamem : a ∈ entities := by
          have h1 := npChoice_mem _ _ _ ha
          rw [keys_normalizeP] at h1
          rcases mem_keys_adjustedProbs prefs boosts visited a h1 with h2 | h2
          · exact hp a h2
          · exact hvis a h2
        have hak : a ∈ visits.map Prod.fst := by rw [hkeys]; exact hamem
        have hkeys2 : (dset visits a 1).map Prod.fst = entities := by
          rw [keys_dset_of_mem _ _ _ hak]
          exact hkeys
        have hvals2 : ∀ q ∈ dset visits a 1, q.2 = 0 ∨ q.2 = 1 := by
          intro q hq
          rcases mem_dset _ _ _ q hq with hq2 | hq2
          · exact hvals q hq2
          · exact Or.inr hq2
        have hvis2 : ∀ x ∈ visited ++ [a], x ∈ entities := by
          intro x hx
          rcases List.mem_append.mp hx with hx | hx
          · exact hvis x hx
          · rw [List.mem_singleton] at hx
            exact hx ▸ hamem
        obtain ⟨hk, hv, hc⟩ := ih rs.tail (dset visits a 1) (visited ++ [a])
          out hkeys2 hvals2 hvis2 heq
        exact ⟨hk, hv, le_trans (countOnes_le_dset_one visits a) hc⟩
      · exact absurd heq (by simp)
    · exact ih rs.tail visits visited out hkeys hvals hvis heq

/-- Well-formedness of every session the simulator returns: the visit
record's keys are exactly the catalog entities in order, every value is 0
or 1, and the number of 1-flags lies between 1 and the catalog size. -/
theorem generate_wellformed (entities : List String) (seg : Segment)
    (n : Nat) (r0 : ℚ) (rs : List ℚ) (visits : List (String × Nat))
    (hp : ∀ x ∈ seg.preferences.map Prod.fst, x ∈ entities)
    (hgen : generate_user_visits entities seg n r0 rs = some visits) :
    visits.map Prod.fst = entities
    ∧ (∀ q ∈ visits, q.2 = 0 ∨ q.2 = 1)
    ∧ 1 ≤ countOnes visits ∧ countOnes visits ≤ entities.length := by
  simp only [generate_user_visits] at hgen
  split at hgen
  · exact absurd hgen (by simp)
  · rename_i first hfirst
    rcases Option.map_eq_some'.mp hgen with ⟨out, hout, rfl⟩
    have hkeys0 : (entities.map (fun a => (a, (0 : Nat)))).map Prod.fst
        = entities := by
      rw [List.map_map]
      have he : ∀ a ∈ entities,
          (Prod.fst ∘ fun a => (a, (0 : Nat))) a = id a := fun a _ => rfl
      rw [List.map_congr_left he, List.map_id]
    have hfmem : first ∈ entities := hp first (npChoice_mem _ _ _ hfirst)
    have hfkeys : first
        ∈ (entities.map (fun a => (a, (0 : Nat)))).map Prod.fst := by
      rw [hkeys0]
      exact hfmem
    have hkeys1 : (dset (entities.map (fun a => (a, (0 : Nat)))) first 1).map
        Prod.fst = entities := by
      rw [keys_dset_of_mem _ _ _ hfkeys, hkeys0]
    have hvals1 : ∀ q ∈ dset (entities.map (fun a => (a, (0 : Nat)))) first 1,
        q.2 = 0 ∨ q.2 = 1 := by
      intro q hq
      rcases mem_dset _ _ _ q hq with hq2 | hq2
      · rcases List.mem_map.mp hq2 with ⟨a, _, rfl⟩
        exact Or.inl rfl
      · exact Or.inr hq2
    have hpos :
        0 < countOnes (dset (entities.map (fun a => (a, (0 : Nat)))) first 1) :=
      countOnes_dset_one_pos _ _ hfkeys
    have hvis1 : ∀ x ∈ [first], x ∈ entities := by
      intro x hx
      rw [List.mem_singleton] at hx
      exact hx ▸ hfmem
    obtain ⟨hk, hv, hc⟩ := additionalVisits_invariant seg.preferences
      seg.cooccurrence_boost entities hp (min (max 1 n) entities.length - 1)
      rs _ [first] out hkeys1 hvals1 hvis1 hout
    refine ⟨hk, hv, le_trans hpos hc, ?_⟩
    have hlen : out.1.length = entities.length := by
      rw [← hk, List.length_map]
    rw [← hlen]
    exact List.countP_le_length _

/-- C1: for every session returned by the visit simulator, for every
segment whose preference keys lie in the catalog and every sequence of
random draws, the visits mapping has exactly one entry per catalog entity
(in catalog order), every value is exactly 0 or 1, and the number of
entities flagged 1 is at least 1 and at most the number of catalog
entities. -/
theorem session_wellformed (entities : List String) (seg : Segment)
    (n : Nat) (r0 : ℚ) (rs : List ℚ) (visits : List (String × Nat))
    (hp : ∀ x ∈ seg.preferences.map Prod.fst, x ∈ entities)
    (hgen : generate_user_visits entities seg n r0 rs = some visits) :
    visits.map Prod.fst = entities
    ∧ (∀ q ∈ visits, q.2 = 0 ∨ q.2 = 1)
    ∧ 1 ≤ countOnes visits ∧ countOnes visits ≤ entities.length :=
  generate_wellformed entities seg n r0 rs visits hp hgen

/-- The business_uk segment of the catalog. -/
def business_uk : Segment := (USER_TYPES.get ⟨0, by decide⟩).2

/-- The budget_conscious segment of the catalog. -/
def budget_conscious : Segment := (USER_TYPES.get ⟨3, by decide⟩).2

/-- The session the simulator produces for business_uk with Poisson
sample 1 and first-draw 0. -/
def sessionBU : List (String × Nat) :=
  [("British_Airways", 1), ("Virgin_Atlantic", 0), ("Lufthansa", 0),
    ("Air_France", 0), ("Ryanair", 0)]

/-- C1 witness: the well-formedness claim applied to a concrete
business_uk session. -/
theorem session_wellformed_witness :
    (∀ x ∈ business_uk.preferences.map Prod.fst, x ∈ AIRLINES)
    ∧ generate_user_visits AIRLINES business_uk 1 0 [] = some sessionBU
    ∧ (sessionBU.map Prod.fst = AIRLINES
        ∧ (∀ q ∈ sessionBU, q.2 = 0 ∨ q.2 = 1)
        ∧ 1 ≤ countOnes sessionBU
        ∧ countOnes sessionBU ≤ AIRLINES.length) := by
  refine ⟨by decide, by with_unfolding_all decide, ?_⟩
  exact session_wellformed AIRLINES business_uk 1 0 [] sessionBU (by decide)
    (by with_unfolding_all decide)

/-- A positive total visit count never lands in the `no_visits` branch of
the visit-pattern derivation. -/
theorem visitPattern_pos_ne (nv : Nat) (h : 1 ≤ nv) :
    visitPattern nv ≠ "no_visits" := by
  unfold visitPattern
  split_ifs with h1 h2 h3 h4
  · decide
  · decide
  · decide
  · decide
  · exfalso
    omega

/-- C10: the interaction-pattern grouping never assigns the no_visits
label to generator output: the simulator always flags at least one entity
before the additional-draws loop, so the branch deriving `no_visits`
(total visited count 0) is unreachable on any session the simulator
returns. -/
theorem generator_never_no_visits (entities : List String) (seg : Segment)
    (n : Nat) (r0 : ℚ) (rs : List ℚ) (visits : List (String × Nat))
    (hp : ∀ x ∈ seg.preferences.map Prod.fst, x ∈ entities)
    (hgen : generate_user_visits entities seg n r0 rs = some visits) :
    visitPattern (sumValues visits) ≠ "no_visits" := by
  obtain ⟨_, _, hone, _⟩ := generate_wellformed entities seg n r0 rs visits
    hp hgen
  have hpos : 0 < countOnes visits := hone
  rw [countOnes, List.countP_pos_iff] at hpos
  obtain ⟨q, hqmem, hq1⟩ := hpos
  have hq : q.2 = 1 := by simpa using hq1
  have hle : q.2 ≤ sumValues visits :=
    List.le_sum_of_mem (List.mem_map_of_mem Prod.snd hqmem)
  exact visitPattern_pos_ne (sumValues visits) (by omega)

/-- The session the simulator produces for budget_conscious with Poisson
sample 0 and first-draw 0. -/
def sessionBC : List (String × Nat) :=
  [("British_Airways", 0), ("Virgin_Atlantic", 0), ("Lufthansa", 0),
    ("Air_France", 0), ("Ryanair", 1)]

/-- C10 witness: the no_visits-unreachability claim applied to a concrete
budget_conscious session. -/
theorem generator_never_no_visits_witness :
    (∀ x ∈ budget_conscious.preferences.map Prod.fst, x ∈ AIRLINES)
    ∧ generate_user_visits AIRLINES budget_conscious 0 0 [] = some sessionBC
    ∧ visitPattern (sumValues sessionBC) ≠ "no_visits" := by
  refine ⟨by decide, by with_unfolding_all decide, ?_⟩
  exact generator_never_no_visits AIRLINES budget_conscious 0 0 [] sessionBC
    (by decide) (by with_unfolding_all decide)

/-! ### The adjusted weight of one additional draw -/

/-- Looking up an absent key yields 0. -/
theorem lookupW_eq_zero_of_not_mem (e : String) :
    ∀ l : Pref, e ∉ l.map Prod.fst → lookupW l e = 0 := by
  intro l
  induction l with
  | nil => intro _; rfl
  | cons p l ih =>
    intro h
    rw [List.map_cons, List.mem_cons, not_or] at h
    show (if p.1 = e then p.2 else lookupW l e) = 0
    have hne : ¬ p.1 = e := fun hh => h.1 hh.symm
    rw [if_neg hne, ih h.2]

/-- Lookup after multiplying one key's weight. -/
theorem lookupW_mulKey (l : Pref) (k e : String) (b : ℚ) :
    lookupW (mulKey l k b) e
      = if k = e then lookupW l e * b else lookupW l e := by
  induction l with
  | nil =>
    show (0 : ℚ) = if k = e then 0 * b else 0
    split <;> simp
  | cons p l ih =>
    have hcons : mulKey (p :: l) k b
        = (if p.1 = k then (p.1, p.2 * b) else p) :: mulKey l k b := rfl
    rw [hcons]
    by_cases hpk : p.1 = k <;> by_cases hpe : p.1 = e
    · have hke : k = e := by rw [← hpk, hpe]
      simp [lookupW, hpk, hpe, hke]
    · have hke : ¬ k = e := by rw [← hpk]; exact hpe
      simp [lookupW, hpk, hpe, hke, ih]
    · have hke : ¬ k = e := fun h => hpk (hpe.trans h.symm)
      have hek : ¬ e = k := fun h => hke h.symm
      simp [lookupW, hpk, hpe, hke, hek]
    · simp [lookupW, hpk, hpe, ih]

/-- Lookup after appending a single entry. -/
theorem lookupW_append_single (k e : String) (v : ℚ) :
    ∀ l : Pref, lookupW (l ++ [(k, v)]) e
      = if e ∈ l.map Prod.fst then lookupW l e
        else if k = e then v else 0 := by
  intro l
  induction l with
  | nil => simp [lookupW]
  | cons p l ih =>
    by_cases hpe : p.1 = e
    · simp [lookupW, hpe]
    · have hne : ¬ e = p.1 := fun h => hpe h.symm
      have hiff : (e ∈ (p :: l).map Prod.fst) ↔ e ∈ l.map Prod.fst := by
        simp [List.mem_cons, hne]
      have hstep : lookupW ((p :: l) ++ [(k, v)]) e
          = lookupW (l ++ [(k, v)]) e := by
        show (if p.1 = e then p.2 else lookupW (l ++ [(k, v)]) e) = _
        rw [if_neg hpe]
      have hlook : lookupW (p :: l) e = lookupW l e := by
        show (if p.1 = e then p.2 else lookupW l e) = _
        rw [if_neg hpe]
      rw [hstep, ih]
      exact if_congr hiff.symm hlook.symm rfl

/-- Lookup after the overwrite pass of `dset` on a present key. -/
theorem lookupW_mapset (k e : String) (v : ℚ) :
    ∀ l : Pref,
      lookupW (l.map (fun p => if p.1 = k then (p.1, v) else p)) e
        = if k = e then (if e ∈ l.map Prod.fst then v else 0)
          else lookupW l e := by
  intro l
  induction l with
  | nil =>
    show (0 : ℚ)
      = if k = e then (if e ∈ ([] : List String) then v else 0) else 0
    split <;> simp
  | cons p l ih =>
    by_cases hpk : p.1 = k <;> by_cases hpe : p.1 = e
    · have hke : k = e := by rw [← hpk, hpe]
      simp [lookupW, hpk, hpe, hke]
    · have hke : ¬ k = e := by rw [← hpk]; exact hpe
      have hne : ¬ e = p.1 := fun h => hpe h.symm
      simp [lookupW, hpk, hpe, hke, hne, ih, List.mem_cons]
    · have hke : ¬ k = e := fun h => hpk (hpe.trans h.symm)
      have hek : ¬ e = k := fun h => hke h.symm
      simp [lookupW, hpk, hpe, hke, hek]
    · have hne : ¬ e = p.1 := fun h => hpe h.symm
      have hiff : (e ∈ (p :: l).map Prod.fst) ↔ e ∈ l.map Prod.fst := by
        simp [List.mem_cons, hne]
      have hstep :
          lookupW ((p :: l).map (fun q => if q.1 = k then (q.1, v) else q)) e
            = lookupW (l.map (fun q => if q.1 = k then (q.1, v) else q)) e := by
        show lookupW ((if p.1 = k then (p.1, v) else p)
            :: l.map (fun q => if q.1 = k then (q.1, v) else q)) e = _
        rw [if_neg hpk]
        show (if p.1 = e then p.2
            else lookupW (l.map (fun q => if q.1 = k then (q.1, v) else q)) e)
          = _
        rw [if_neg hpe]
      have hlook : lookupW (p :: l) e = lookupW l e := by
        show (if p.1 = e then p.2 else lookupW l e) = _
        rw [if_neg hpe]
      rw [hstep, ih]
      exact if_congr Iff.rfl (if_congr hiff.symm rfl rfl) hlook.symm

/-- Lookup after a dict assignment: the assigned key reads the assigned
value, all other keys are unchanged. -/
theorem lookupW_dset (l : Pref) (k e : String) (v : ℚ) :
    lookupW (dset l k v) e = if k = e then v else lookupW l e := by
  unfold dset
  split
  · rename_i hany
    rw [lookupW_mapset]
    rcases List.any_eq_true.mp hany with ⟨p, hp, hpk⟩
    have hkmem : k ∈ l.map Prod.fst := by
      rw [beq_iff_eq] at hpk
      exact hpk ▸ List.mem_map_of_mem Prod.fst hp
    by_cases hke : k = e
    · rw [if_pos hke, if_pos hke, if_pos (hke ▸ hkmem)]
    · rw [if_neg hke, if_neg hke]
  · rename_i hany
    rw [lookupW_append_single]
    by_cases hmem : e ∈ l.map Prod.fst
    · rw [if_pos hmem]
      by_cases hke : k = e
      · exfalso
        subst hke
        rcases List.mem_map.mp hmem with ⟨p, hp, hpk⟩
        exact hany (List.any_eq_true.mpr ⟨p, hp, by
          rw [beq_iff_eq]; exact hpk⟩)
      · rw [if_neg hke]
    · rw [if_neg hmem, lookupW_eq_zero_of_not_mem e l hmem]

/-- The weight of `e` after one boost-rule step is its previous weight
times that rule's factor. -/
theorem lookupW_boostStep (W : List String) (v e : String) (acc : Pref)
    (rule : (String × String) × ℚ) :
    lookupW (boostStep W v acc rule) e
      = lookupW acc e * ruleFactor W v e rule := by
  unfold boostStep ruleFactor
  split
  · rw [lookupW_mulKey]
    by_cases h2e : rule.1.2 = e
    · rw [if_pos h2e, if_pos h2e]
    · rw [if_neg h2e, if_neg h2e, mul_one]
  · split
    · rw [lookupW_mulKey]
      by_cases h1e : rule.1.1 = e
      · rw [if_pos h1e, if_pos h1e]
      · rw [if_neg h1e, if_neg h1e, mul_one]
    · rw [mul_one]

/-- The weight of `e` after folding all boost rules for one visited entity
is its previous weight times the product of the rule factors. -/
theorem lookupW_boostFold (W : List String) (v e : String) :
    ∀ (boosts : List ((String × String) × ℚ)) (acc : Pref),
      lookupW (boosts.foldl (boostStep W v) acc) e
        = lookupW acc e * (boosts.map (ruleFactor W v e)).prod := by
  intro boosts
  induction boosts with
  | nil => intro acc; simp
  | cons rule boosts ih =>
    intro acc
    rw [List.foldl_cons, ih, lookupW_boostStep, List.map_cons,
      List.prod_cons, mul_assoc]

/-- The weight of `e` after the whole boost pass is its base weight times
the double product of rule factors over visited entities and rules. -/
theorem lookupW_applyBoostsAux (boosts : List ((String × String) × ℚ))
    (W : List String) (e : String) :
    ∀ (vs : List String) (acc : Pref),
      lookupW (vs.foldl (fun acc v => boosts.foldl (boostStep W v) acc) acc) e
        = lookupW acc e
          * (vs.map (fun v => (boosts.map (ruleFactor W v e)).prod)).prod := by
  intro vs
  induction vs with
  | nil => intro acc; simp
  | cons v vs ih =>
    intro acc
    rw [List.foldl_cons, ih, lookupW_boostFold, List.map_cons,
      List.prod_cons, mul_assoc]

/-- The weight of `e` after zeroing the visited entities: 0 when `e` is
visited, unchanged otherwise. -/
theorem lookupW_zeroVisited (e : String) :
    ∀ (vs : List String) (acc : Pref),
      lookupW (vs.foldl (fun acc v => dset acc v 0) acc) e
        = if e ∈ vs then 0 else lookupW acc e := by
  intro vs
  induction vs with
  | nil => intro acc; simp
  | cons v vs ih =>
    intro acc
    rw [List.foldl_cons, ih (dset acc v 0), lookupW_dset]
    by_cases hev : e ∈ vs
    · rw [if_pos hev, if_pos (List.mem_cons_of_mem v hev)]
    · rw [if_neg hev]
      by_cases hve : v = e
      · have hmem : e ∈ v :: vs := by
          rw [← hve]
          exact List.mem_cons_self v vs
        rw [if_pos hve, if_pos hmem]
      · have hmem : ¬ e ∈ v :: vs := by
          rw [List.mem_cons, not_or]
          exact ⟨fun h => hve h.symm, hev⟩
        rw [if_neg hve, if_neg hmem]

/-- Exchanging the two products of a rectangular family of rationals. -/
theorem prod_map_swap {α β : Type} (f : α → β → ℚ) :
    ∀ (l1 : List α) (l2 : List β),
      (l1.map (fun a => (l2.map (f a)).prod)).prod
        = (l2.map (fun b => (l1.map (fun a => f a b)).prod)).prod := by
  intro l1
  induction l1 with
  | nil =>
    intro l2
    refine Eq.symm (List.prod_eq_one (fun x hx => ?_))
    rcases List.mem_map.mp hx with ⟨b, _, rfl⟩
    rfl
  | cons a l1 ih =>
    intro l2
    simp only [List.map_cons, List.prod_cons]
    rw [ih l2, List.prod_map_mul]

/-- Under the loop's side conditions (`e` not visited, `v` visited), the
per-step factor reduces to: the multiplier when the rule pairs `v` with
`e`, else 1. -/
theorem ruleFactor_eq (W : List String) (v e : String)
    (rule : (String × String) × ℚ) (he : e ∉ W) (hv : v ∈ W) :
    ruleFactor W v e rule
      = if (rule.1.1 = v ∧ rule.1.2 = e) ∨ (rule.1.2 = v ∧ rule.1.1 = e)
          then rule.2 else 1 := by
  obtain ⟨⟨a1, a2⟩, b⟩ := rule
  have hve : v ≠ e := fun h => he (h ▸ hv)
  unfold ruleFactor
  by_cases h1v : a1 = v <;> by_cases h2v : a2 = v <;>
    by_cases h1e : a1 = e <;> by_cases h2e : a2 = e <;>
    simp_all [List.contains, List.elem_eq_mem]

/-- The product of the per-step factors of one rule over a duplicate-free
visited list: the multiplier exactly when the rule pairs `e` with a
visited entity, else 1. -/
theorem prod_ruleFactor (W : List String) (e a1 a2 : String) (b : ℚ)
    (he : e ∉ W) :
    ∀ vs : List String, vs.Nodup → (∀ x ∈ vs, x ∈ W) →
      (vs.map (fun v => ruleFactor W v e ((a1, a2), b))).prod
        = if (a1 ∈ vs ∧ a2 = e) ∨ (a2 ∈ vs ∧ a1 = e) then b else 1 := by
  intro vs
  induction vs with
  | nil =>
    intro _ _
    simp
  | cons v vs ih =>
    intro hnd hsub
    rcases List.nodup_cons.mp hnd with ⟨hvnot, hnd2⟩
    have hv : v ∈ W := hsub v (List.mem_cons_self v vs)
    have hsub2 : ∀ x ∈ vs, x ∈ W := fun x hx =>
      hsub x (List.mem_cons_of_mem v hx)
    have hev : e ∉ vs := fun hx => he (hsub2 e hx)
    have hve : v ≠ e := fun h => he (h ▸ hv)
    rw [List.map_cons, List.prod_cons, ih hnd2 hsub2,
      ruleFactor_eq W v e ((a1, a2), b) he hv]
    by_cases h1v : a1 = v <;> by_cases h2v : a2 = v <;>
      by_cases h1e : a1 = e <;> by_cases h2e : a2 = e <;>
      by_cases hm1 : a1 ∈ vs <;> by_cases hm2 : a2 ∈ vs <;>
      simp_all [List.mem_cons]

/-- C2: in the visit simulator, for each draw after the first, the weight
used for an entity `e` not yet visited equals the segment's base preference
for `e` multiplied, cumulatively, by the multiplier of every boost rule
that pairs `e` with an already-visited entity (in either pair position);
and the weight used for every already-visited entity is zero.  (The
visited list of the loop never repeats an entity.) -/
theorem adjusted_weight_eq (prefs : Pref)
    (boosts : List ((String × String) × ℚ)) (visited : List String)
    (e : String) (hnd : visited.Nodup) :
    (e ∉ visited →
      lookupW (adjustedProbs prefs boosts visited) e
        = lookupW prefs e * boostFactor boosts visited e)
    ∧ (e ∈ visited →
      lookupW (adjustedProbs prefs boosts visited) e = 0) := by
  constructor
  · intro he
    unfold adjustedProbs zeroVisited applyBoosts
    rw [lookupW_zeroVisited, if_neg he, lookupW_applyBoostsAux,
      prod_map_swap (fun v rule => ruleFactor visited v e rule) visited
        boosts]
    unfold boostFactor
    refine congrArg (lookupW prefs e * ·) (congrArg List.prod ?_)
    refine List.map_congr_left (fun rule _ => ?_)
    exact prod_ruleFactor visited e rule.1.1 rule.1.2 rule.2 he visited hnd
      (fun x hx => hx)
  · intro he
    unfold adjustedProbs zeroVisited
    rw [lookupW_zeroVisited, if_pos he]

/-- C2 witness: the adjusted-weight claim applied to the business_uk
segment with British Airways already visited, probing the weight of
Virgin Atlantic. -/
theorem adjusted_weight_eq_witness :
    (["British_Airways"] : List String).Nodup
    ∧ (("Virgin_Atlantic" ∉ (["British_Airways"] : List String) →
        lookupW (adjustedProbs business_uk.preferences
            business_uk.cooccurrence_boost ["British_Airways"])
          "Virgin_Atlantic"
          = lookupW business_uk.preferences "Virgin_Atlantic"
            * boostFactor business_uk.cooccurrence_boost ["British_Airways"]
                "Virgin_Atlantic")
      ∧ ("Virgin_Atlantic" ∈ (["British_Airways"] : List String) →
        lookupW (adjustedProbs business_uk.preferences
            business_uk.cooccurrence_boost ["British_Airways"])
          "Virgin_Atlantic" = 0)) :=
  ⟨by decide, adjusted_weight_eq business_uk.preferences
    business_uk.cooccurrence_boost ["British_Airways"] "Virgin_Atlantic"
    (by decide)⟩

end Airline
